import Mathlib

set_option maxHeartbeats 1600000

/-!
Verification of the USX parser (`src/usfm-parser/usx-parser.ts`) and the
path-normalization helper of the API generator.  The parser is embedded
shallowly: the DOM is a tree of text nodes and elements, and each generator
of the source becomes a structurally recursive function, so every definition
is kernel-computable on concrete documents.
-/

mutual

/-- The DOM view the parser operates on: a node is a text node or an element
with a tag name, an attribute list and child nodes.  Children are kept as a
mutually inductive `XmlForest` so that all tree-recursive functions below are
structurally recursive (and hence reduce inside the kernel). -/
inductive XmlNode : Type where
  | text (s : String)
  | elem (name : String) (attrs : List (String × String)) (children : XmlForest)

inductive XmlForest : Type where
  | nil
  | cons (head : XmlNode) (tail : XmlForest)

end

/-- Child list of a forest as a `List`, used by the sibling-walking loops. -/
def XmlForest.toList : XmlForest → List XmlNode
  | .nil => []
  | .cons n rest => n :: XmlForest.toList rest

/-- Build a forest from a list (used to write concrete documents). -/
def XmlForest.ofList : List XmlNode → XmlForest
  | [] => .nil
  | n :: rest => .cons n (XmlForest.ofList rest)

/-- `Node.nodeName`: the tag name of an element, `#text` for a text node. -/
def nodeNameOf : XmlNode → String
  | .text _ => "#text"
  | .elem nm _ _ => nm

/-- Attribute list of a node (empty for text nodes). -/
def attrsOf : XmlNode → List (String × String)
  | .text _ => []
  | .elem _ a _ => a

/-- Child forest of a node (empty for text nodes). -/
def childForestOf : XmlNode → XmlForest
  | .text _ => .nil
  | .elem _ _ ch => ch

/-- Child nodes of a node as a list (`Node.childNodes`). -/
def childNodesOf (n : XmlNode) : List XmlNode :=
  (childForestOf n).toList

/-- `Element.getAttribute`: the value of the first attribute with the given
name, or `none` when the attribute is absent. -/
def getAttrL : List (String × String) → String → Option String
  | [], _ => none
  | (k, v) :: rest, nm => if k == nm then some v else getAttrL rest nm

/-- `getAttribute` on a node. -/
def getAttrOf (n : XmlNode) (nm : String) : Option String :=
  getAttrL (attrsOf n) nm

/-- `Element.hasAttribute`. -/
def hasAttrL (attrs : List (String × String)) (nm : String) : Bool :=
  (getAttrL attrs nm).isSome

/-- Is the node an element? -/
def isElemB : XmlNode → Bool
  | .elem _ _ _ => true
  | .text _ => false

mutual

/-- `Node.textContent`: concatenation of all descendant text, in order. -/
def textContentN : XmlNode → String
  | .text s => s
  | .elem _ _ ch => textContentF ch

def textContentF : XmlForest → String
  | .nil => ""
  | .cons n rest => textContentN n ++ textContentF rest

end

mutual

/-- First descendant element (pre-order document order) satisfying `p`;
this is `querySelector` run on a forest of children. -/
def qsFirstN (p : XmlNode → Bool) : XmlNode → Option XmlNode
  | .text _ => none
  | .elem nm a ch =>
    if p (.elem nm a ch) then some (.elem nm a ch) else qsFirstF p ch

def qsFirstF (p : XmlNode → Bool) : XmlForest → Option XmlNode
  | .nil => none
  | .cons n rest =>
    match qsFirstN p n with
    | some e => some e
    | none => qsFirstF p rest

end

mutual

/-- All descendant elements (pre-order document order) satisfying `p`;
this is `querySelectorAll` run on a forest of children. -/
def qsAllN (p : XmlNode → Bool) : XmlNode → List XmlNode
  | .text _ => []
  | .elem nm a ch =>
    if p (.elem nm a ch) then .elem nm a ch :: qsAllF p ch else qsAllF p ch

def qsAllF (p : XmlNode → Bool) : XmlForest → List XmlNode
  | .nil => []
  | .cons n rest => qsAllN p n ++ qsAllF p rest

end

/-- The character class of JavaScript `\s` (also used by `String.trim` and by
the whitespace skipping of `parseInt`): ASCII whitespace, NBSP, the Unicode
space separators, line/paragraph separators and the BOM. -/
def isJsSpace (c : Char) : Bool :=
  c = ' ' || c = '\t' || c = '\n' || c = '\r' ||
  c.toNat = 11 || c.toNat = 12 || c.toNat = 0xa0 || c.toNat = 0x1680 ||
  (0x2000 ≤ c.toNat && c.toNat ≤ 0x200a) ||
  c.toNat = 0x2028 || c.toNat = 0x2029 || c.toNat = 0x202f ||
  c.toNat = 0x205f || c.toNat = 0x3000 || c.toNat = 0xfeff

/-- Collapse every run of whitespace to a single space; the flag records
whether the previous character was part of a whitespace run. -/
def collapseAux : Bool → List Char → List Char
  | _, [] => []
  | prev, c :: rest =>
    if isJsSpace c then
      if prev then collapseAux true rest else ' ' :: collapseAux true rest
    else c :: collapseAux false rest

/-- `trimText` of the source: `text.replace(/\s+/g, ' ')`. -/
def trimText (s : String) : String :=
  String.mk (collapseAux false s.data)

/-- JavaScript `String.prototype.trim`: strip whitespace from both ends. -/
def jsTrim (s : String) : String :=
  String.mk (((s.data.dropWhile fun c => isJsSpace c).reverse.dropWhile
    fun c => isJsSpace c).reverse)

/-- Value of a run of decimal digits. -/
def digitsToNat (l : List Char) : Nat :=
  l.foldl (fun a c => a * 10 + (c.toNat - 48)) 0

/-- JavaScript `parseInt(s, 10)`: skip leading whitespace, read an optional
sign and then a maximal run of decimal digits, ignoring anything after it;
`none` models the `NaN` result produced when no digit is found. -/
def parseIntJs (s : String) : Option Int :=
  let core : List Char → Option Int := fun ds =>
    let run := ds.takeWhile fun c => c.isDigit
    if run.isEmpty then none else some (Int.ofNat (digitsToNat run))
  match s.data.dropWhile fun c => isJsSpace c with
  | '-' :: rest => (core rest).map fun n => -n
  | '+' :: rest => core rest
  | rest => core rest

/-- `parseInt(element.getAttribute('number') || '0', 10)` of the source: a
missing or empty `number` attribute falls back to the string `"0"`. -/
def milestoneNumber (attrs : List (String × String)) : Option Int :=
  parseIntJs (match getAttrL attrs "number" with
    | none => "0"
    | some s => if s == "" then "0" else s)

/-- Length of the prefix matched by the regex `^[0-9]{1,3}:[0-9]{1,3}` (the
`verseReferenceRegex` of the source).  The greedy first group must consume the
whole leading digit run (otherwise the next character is a digit, not `:`), so
the regex matches exactly when that run has length 1–3 and is followed by `:`
and at least one digit; the second group then takes at most 3 digits. -/
def cvMatchLen (l : List Char) : Option Nat :=
  let d1 := (l.takeWhile fun c => c.isDigit).length
  if 1 ≤ d1 && d1 ≤ 3 then
    match l.drop d1 with
    | ':' :: rest =>
      let d2 := min ((rest.takeWhile fun c => c.isDigit).length) 3
      if 1 ≤ d2 then some (d1 + 1 + d2) else none
    | _ => none
  else none

/-- The footnote-text pipeline of the `note` handler: collapse whitespace,
trim, and strip a leading `C:V` verse-reference pattern (trimming again). -/
def noteText (raw : String) : String :=
  let t0 := jsTrim (trimText raw)
  match cvMatchLen t0.data with
  | some k => jsTrim (String.mk (t0.data.drop k))
  | none => t0

/-- `node.getAttribute('caller') || null`: an absent or empty attribute
becomes `null`. -/
def callerOf (attrs : List (String × String)) : Option String :=
  match getAttrL attrs "caller" with
  | none => none
  | some c => if c == "" then none else some c

/-- The `reference` record carried by a footnote. -/
structure NoteRef where
  chapter : Option Int
  verse : Option Int
deriving DecidableEq, Repr

/-- A parsed footnote (`Footnote` of the source).  Numbers are `Option Int`
because `parseInt` can produce `NaN`, modelled as `none`. -/
structure Footnote where
  noteId : Nat
  caller : Option String
  text : String
  reference : NoteRef
deriving DecidableEq, Repr

/-- Inline content of a verse or Hebrew subtitle: a plain string, a formatted
`Text` (`wordsOfJesus` is either present-and-true or absent, so a `Bool`;
`poem` is 1–4 or absent), or a footnote reference (which the poem wrapper may
also decorate with a `poem` field). -/
inductive InlineItem : Type where
  | str (s : String)
  | text (text : String) (poem : Option Nat) (wordsOfJesus : Bool)
  | note (noteId : Nat) (poem : Option Nat)
deriving DecidableEq, Repr

/-- Chapter-level content (`ChapterContent` of the source). -/
inductive ChapterContent : Type where
  | heading (content : List String)
  | lineBreak
  | hebrewSubtitle (content : List InlineItem)
  | verse (number : Option Int) (content : List InlineItem)
deriving DecidableEq, Repr

/-- A parsed chapter. -/
structure Chapter where
  number : Option Int
  content : List ChapterContent
  footnotes : List Footnote
deriving DecidableEq, Repr

/-- A root item of the parse tree: a chapter or a section heading. -/
inductive RootItem : Type where
  | chapter (c : Chapter)
  | heading (content : List String)
deriving DecidableEq, Repr

/-- The parse tree produced for one book. -/
structure ParseTree where
  id : String
  header : Option String
  title : Option String
  content : List RootItem
deriving DecidableEq, Repr

/-- `isVerseText` of the source: an object with a `text` field. -/
def isVerseTextB : InlineItem → Bool
  | .text _ _ _ => true
  | _ => false

/-- `hasSameFormatting`: equal `poem` and `wordsOfJesus` fields. -/
def hasSameFormatting (p q : Option Nat) (w u : Bool) : Bool :=
  p == q && w == u

/-- `addOrJoin` of the source: append `v` to the array, but concatenate it
into the last entry when both are plain strings, or both are `Text` objects
with the same formatting. -/
def addOrJoin : List InlineItem → InlineItem → List InlineItem
  | [], v => [v]
  | [last], v =>
    match last, v with
    | .str a, .str b => [.str (a ++ b)]
    | .text a p w, .text b q u =>
      if hasSameFormatting p q w u then [.text (a ++ b) p w]
      else [.text a p w, .text b q u]
    | last, v => [last, v]
  | x :: y :: rest, v => x :: addOrJoin (y :: rest) v

/-- `trimContent` of the source: collapse-and-trim every string and every
`Text` payload in place, removing entries that become empty. -/
def trimContent : List InlineItem → List InlineItem
  | [] => []
  | .str s :: rest =>
    let s2 := jsTrim (trimText s)
    if s2 == "" then trimContent rest else .str s2 :: trimContent rest
  | .text t p w :: rest =>
    let t2 := jsTrim (trimText t)
    if t2 == "" then trimContent rest else .text t2 p w :: trimContent rest
  | .note i p :: rest => .note i p :: trimContent rest

/-- Accumulate a stream of inline items through `addOrJoin` and finish with
`trimContent`, as the verse and subtitle builders do. -/
def mkInline (items : List InlineItem) : List InlineItem :=
  trimContent (items.foldl addOrJoin [])

/-- `iterateCharContent`: a `wj` char becomes a `Text` with `wordsOfJesus`,
any other char style yields its collapsed text as a plain string. -/
def charContent (attrs : List (String × String)) (ch : XmlForest) : InlineItem :=
  let t := trimText (textContentF ch)
  if getAttrL attrs "style" == some "wj" then .text t none true else .str t

/-- `iterateNodeTextContent`: text nodes yield their text, `char` elements go
through `charContent`, and a `note` element of style `f` allocates the next
`noteId`, records a footnote against the enclosing chapter and yields a
footnote reference; everything else yields nothing.  `verseNum` is `none`
inside a Hebrew subtitle (where the reference verse defaults to 0) and
`some n` inside verse `n`.  Returns the items, the footnotes recorded, and
the updated note counter. -/
def nodeTextContent (chapNum : Option Int) (verseNum : Option (Option Int))
    (ctr : Nat) : XmlNode → List InlineItem × List Footnote × Nat
  | .text s => ([.str s], [], ctr)
  | .elem nm attrs ch =>
    if nm == "char" then ([charContent attrs ch], [], ctr)
    else if nm == "note" then
      if getAttrL attrs "style" == some "f" then
        let fn : Footnote :=
          { noteId := ctr
            caller := callerOf attrs
            text := noteText (textContentF ch)
            reference :=
              { chapter := chapNum
                verse := match verseNum with
                  | some vn => vn
                  | none => some 0 } }
        ([.note ctr none], [fn], ctr + 1)
      else ([], [], ctr)
    else ([], [], ctr)

/-- Identity of the parent element a walked node is reported with: tag name
and attributes (`node.parentElement` as far as the verse walker reads it). -/
abbrev ParentInfo := String × List (String × String)

/-- Poem level contributed by the parent element: 1–4 when it is a `para` of
style `q1`–`q4`. -/
def poemOf (par : ParentInfo) : Option Nat :=
  if par.1 == "para" then
    match getAttrL par.2 "style" with
    | some "q1" => some 1
    | some "q2" => some 2
    | some "q3" => some 3
    | some "q4" => some 4
    | _ => none
  else none

/-- The poem wrapper of `iterateVerseContent`: inside a `q1`–`q4` paragraph a
plain string is promoted to a `Text` carrying the poem level, and any other
item gets its `poem` field overwritten by spreading. -/
def wrapPoem (p : Option Nat) (it : InlineItem) : InlineItem :=
  match p with
  | none => it
  | some k =>
    match it with
    | .str s => .text s (some k) false
    | .text t _ w => .text t (some k) w
    | .note i _ => .note i (some k)

/-- The cousin half of `iterateSiblingsAndCousins`, continued at the parent
level: find the next element sibling (the uncle); the non-element nodes before
it are yielded with the root as parent (only when the uncle exists), and then
the walk descends to the uncle's first child and recurses.  A childless uncle
ends the walk. -/
def walkRootAux (rootInfo : ParentInfo) :
    List XmlNode → List (XmlNode × ParentInfo)
  | [] => []
  | n :: rest =>
    match n with
    | .elem nm a ch =>
      match ch with
      | .nil => []
      | .cons c cs =>
        (c, (nm, a)) ::
          ((cs.toList.map fun x => (x, (nm, a))) ++ walkRootAux rootInfo rest)
    | .text s =>
      if rest.any isElemB then (.text s, rootInfo) :: walkRootAux rootInfo rest
      else []

/-- `iterateSiblingsAndCousins` started at a verse milestone: first the
remaining siblings inside the paragraph, then the cousin walk over the
paragraph's following siblings at the root level. -/
def walkFrom (sibs : List XmlNode) (parent : ParentInfo)
    (rootInfo : ParentInfo) (domRest : List XmlNode) :
    List (XmlNode × ParentInfo) :=
  (sibs.map fun x => (x, parent)) ++ walkRootAux rootInfo domRest

/-- `iterateVerseContent` over the walked nodes: each node's items are poem
wrapped according to its parent paragraph. -/
def processVerseNodes (chapNum : Option Int) (vnum : Option Int) :
    List (XmlNode × ParentInfo) → Nat → List InlineItem × List Footnote × Nat
  | [], ctr => ([], [], ctr)
  | (n, par) :: rest, ctr =>
    let r1 := nodeTextContent chapNum (some vnum) ctr n
    let its := r1.1.map (wrapPoem (poemOf par))
    let r2 := processVerseNodes chapNum vnum rest r1.2.2
    (its ++ r2.1, r1.2.1 ++ r2.2.1, r2.2.2)

/-- `iterateHebrewSubtitleContent`: every child node of the `d` paragraph is
fed to `iterateNodeTextContent` with no open verse. -/
def processSubNodes (chapNum : Option Int) :
    List XmlNode → Nat → List InlineItem × List Footnote × Nat
  | [], ctr => ([], [], ctr)
  | n :: rest, ctr =>
    let r1 := nodeTextContent chapNum none ctr n
    let r2 := processSubNodes chapNum rest r1.2.2
    (r1.1 ++ r2.1, r1.2.1 ++ r2.2.1, r2.2.2)

/-- `style === 's1' || style === 's2' || style === 's3' || style === 's4'`. -/
def styleIsS14 (attrs : List (String × String)) : Bool :=
  match getAttrL attrs "style" with
  | some "s1" => true
  | some "s2" => true
  | some "s3" => true
  | some "s4" => true
  | _ => false

/-- Heading content: `child.textContent ? [child.textContent] : []`. -/
def headingContentOf (n : XmlNode) : List String :=
  let tc := textContentN n
  if tc == "" then [] else [tc]

/-- The `ignoredParaStyles` set of the source. -/
def ignoredParaStyles : List String :=
  ["ide", "rem", "h", "h1", "h2", "h3", "h4",
   "toc1", "toc2", "toc3", "toca1", "toca2", "toca3",
   "imt", "imt1", "imt2", "imt3", "imt4",
   "is", "is1", "is2", "is3", "is4",
   "ip", "ipi", "im", "imi", "ipq", "imq", "ipr",
   "iq", "iq1", "iq2", "iq3", "iq4",
   "ib", "ili", "ili1", "ili2", "ili3", "ili4",
   "iot", "io", "io1", "io2", "io3", "io4",
   "iex", "imte", "ie",
   "mt", "mt1", "mt2", "mt3", "mt4",
   "mte", "mte1", "mte2", "mte3", "mte4",
   "cl", "cd", "r"]

/-- `iterateChapterParaVerseContent`: scan the paragraph's child elements; a
`chapter` child stops the scan, a `verse` milestone without `eid` opens a
verse whose content is collected by walking siblings and cousins up to the
next verse milestone, joined with `addOrJoin` and finished with
`trimContent`. -/
def paraVerses (paraInfo : ParentInfo) (rootInfo : ParentInfo)
    (domRest : List XmlNode) (chapNum : Option Int) :
    List XmlNode → Nat → List ChapterContent × List Footnote × Nat
  | [], ctr => ([], [], ctr)
  | n :: rest, ctr =>
    if nodeNameOf n == "chapter" then ([], [], ctr)
    else if nodeNameOf n == "verse" then
      if hasAttrL (attrsOf n) "eid" then
        paraVerses paraInfo rootInfo domRest chapNum rest ctr
      else
        let vnum := milestoneNumber (attrsOf n)
        let walk := (walkFrom rest paraInfo rootInfo domRest).takeWhile
          fun pr => !(nodeNameOf pr.1 == "verse")
        let r1 := processVerseNodes chapNum vnum walk ctr
        let r2 := paraVerses paraInfo rootInfo domRest chapNum rest r1.2.2
        (ChapterContent.verse vnum (mkInline r1.1) :: r2.1,
         r1.2.1 ++ r2.2.1, r2.2.2)
    else paraVerses paraInfo rootInfo domRest chapNum rest ctr

/-- `iterateChapterParaContent`: dispatch a paragraph inside a chapter on its
style — `s1`–`s4` headings, `b` line breaks, `d` Hebrew subtitles, ignored
styles, and otherwise verse content (also when the style is absent or not in
the ignore list). -/
def paraContent (attrs : List (String × String)) (ch : XmlForest)
    (domRest : List XmlNode) (chapNum : Option Int) (rootInfo : ParentInfo)
    (ctr : Nat) : List ChapterContent × List Footnote × Nat :=
  let style := getAttrL attrs "style"
  if styleIsS14 attrs then
    ([.heading (headingContentOf (.elem "para" attrs ch))], [], ctr)
  else if style == some "b" then ([.lineBreak], [], ctr)
  else if style == some "d" then
    let r := processSubNodes chapNum ch.toList ctr
    ([.hebrewSubtitle (mkInline r.1)], r.2.1, r.2.2)
  else if (match style with
           | none => true
           | some s => !(ignoredParaStyles.contains s)) then
    paraVerses ("para", attrs) rootInfo domRest chapNum ch.toList ctr
  else ([], [], ctr)

/-- The chapter currently being accumulated by the root walk. -/
structure OpenChapter where
  number : Option Int
  ccs : List ChapterContent
  fns : List Footnote

/-- `iterateRootContent` fused with `iterateChapterContent`.  The two source
generators share one element iterator: when a chapter is open, the inner loop
consumes elements (paragraphs feed the chapter; any `chapter` element closes
it and is consumed by the inner `break`, thanks to the `uncompletable`
wrapper), after which the outer loop continues with the following elements.
That shared-cursor behaviour is modelled by a single pass holding the open
chapter as state.  Outside a chapter, a `chapter` element without `eid` opens
a chapter, and a `para` of style `s1`–`s4` yields a root heading; text nodes
are invisible to the element iterator. -/
def rootLoop (rootInfo : ParentInfo) :
    List XmlNode → Option OpenChapter → Nat → List RootItem × Nat
  | [], none, ctr => ([], ctr)
  | [], some oc, ctr => ([.chapter ⟨oc.number, oc.ccs, oc.fns⟩], ctr)
  | n :: rest, none, ctr =>
    if nodeNameOf n == "chapter" then
      if hasAttrL (attrsOf n) "eid" then rootLoop rootInfo rest none ctr
      else rootLoop rootInfo rest (some ⟨milestoneNumber (attrsOf n), [], []⟩) ctr
    else if nodeNameOf n == "para" then
      if styleIsS14 (attrsOf n) then
        let r := rootLoop rootInfo rest none ctr
        (.heading (headingContentOf n) :: r.1, r.2)
      else rootLoop rootInfo rest none ctr
    else rootLoop rootInfo rest none ctr
  | n :: rest, some oc, ctr =>
    if nodeNameOf n == "chapter" then
      let r := rootLoop rootInfo rest none ctr
      (.chapter ⟨oc.number, oc.ccs, oc.fns⟩ :: r.1, r.2)
    else if nodeNameOf n == "para" then
      let pr := paraContent (attrsOf n) (childForestOf n) rest oc.number rootInfo ctr
      rootLoop rootInfo rest
        (some ⟨oc.number, oc.ccs ++ pr.1, oc.fns ++ pr.2.1⟩) pr.2.2
    else rootLoop rootInfo rest (some oc) ctr

/-- The `book[code]` selector: a `book` element bearing a `code` attribute. -/
def isBookCode (n : XmlNode) : Bool :=
  nodeNameOf n == "book" && (getAttrOf n "code").isSome

/-- The `para[style="h"]` selector. -/
def isHeaderPara (n : XmlNode) : Bool :=
  nodeNameOf n == "para" && getAttrOf n "style" == some "h"

/-- The `para[style="mt1"], para[style="mt2"], para[style="mt3"]` selector. -/
def isTitlePara (n : XmlNode) : Bool :=
  nodeNameOf n == "para" &&
    (getAttrOf n "style" == some "mt1" || getAttrOf n "style" == some "mt2" ||
     getAttrOf n "style" == some "mt3")

/-- `USXParser.parse` on the document element, for a freshly constructed
parser (note counter 0).  Fails when no descendant `book` element carries a
`code` attribute, or when the first such element's code is empty; otherwise
reads the header and title paragraphs and walks the root children. -/
def parse (doc : XmlNode) : Except String ParseTree :=
  match qsFirstF isBookCode (childForestOf doc) with
  | none => .error "The USX content does not contain a book element."
  | some b =>
    let bookCode := (getAttrOf b "code").getD ""
    if bookCode == "" then
      .error "The book element does not contain a code attribute."
    else
      let header := (qsFirstF isHeaderPara (childForestOf doc)).map textContentN
      let titles := qsAllF isTitlePara (childForestOf doc)
      let title :=
        if 0 < titles.length then
          some (String.intercalate " "
            ((titles.map textContentN).filter fun s => !(s == "")))
        else none
      let items := (rootLoop (nodeNameOf doc, attrsOf doc)
        (childNodesOf doc) none 0).1
      .ok ⟨bookCode, header, title, items⟩

/-- Note ids referenced by one inline item. -/
def refIdsItem : InlineItem → List Nat
  | .note i _ => [i]
  | _ => []

/-- Note ids referenced by an inline sequence, in order. -/
def refIdsL : List InlineItem → List Nat
  | [] => []
  | it :: rest => refIdsItem it ++ refIdsL rest

/-- Note ids referenced inside one chapter-content item. -/
def ccRefIds : ChapterContent → List Nat
  | .verse _ l => refIdsL l
  | .hebrewSubtitle l => refIdsL l
  | _ => []

/-- Note ids referenced by a chapter-content list, in order. -/
def ccsRefIds : List ChapterContent → List Nat
  | [] => []
  | cc :: rest => ccRefIds cc ++ ccsRefIds rest

/-- All footnote-reference ids occurring in a chapter's content. -/
def chapterRefIds (c : Chapter) : List Nat :=
  ccsRefIds c.content

/-- The ids of a chapter's footnote records, in order. -/
def fnIds (l : List Footnote) : List Nat :=
  l.map fun f => f.noteId

/-- The chapters among a tree's root items. -/
def chaptersOf (t : ParseTree) : List Chapter :=
  t.content.filterMap fun it =>
    match it with
    | .chapter c => some c
    | _ => none

/-- The verse and Hebrew-subtitle inline arrays of a chapter. -/
def inlineArraysOfChapter (c : Chapter) : List (List InlineItem) :=
  c.content.filterMap fun cc =>
    match cc with
    | .verse _ l => some l
    | .hebrewSubtitle l => some l
    | _ => none

/-- An inline item whose payload is non-empty (references always count). -/
def itemNonEmpty : InlineItem → Bool
  | .str s => !(s == "")
  | .text t _ _ => !(t == "")
  | .note _ _ => true

/-- No empty string and no empty `Text` occurs in the sequence. -/
def noEmptyB (l : List InlineItem) : Bool :=
  l.all itemNonEmpty

/-- An adjacent pair allowed by the coalescing invariant: not two plain
strings, and not two `Text` entries with identical formatting. -/
def okPairB : InlineItem → InlineItem → Bool
  | .str _, .str _ => false
  | .text _ p w, .text _ q u => !(hasSameFormatting p q w u)
  | _, _ => true

/-- Every adjacent pair of the sequence is allowed. -/
def chainOkB : List InlineItem → Bool
  | [] => true
  | [_] => true
  | x :: y :: rest => okPairB x y && chainOkB (y :: rest)

/-- A root-level `para` element of heading style `s1`–`s4`. -/
def isS14ParaB : XmlNode → Bool
  | .elem nm attrs _ => nm == "para" && styleIsS14 attrs
  | .text _ => false

/-- The root headings a child list contributes: one heading item per
`s1`–`s4` paragraph, in order. -/
def specRootHeadings (l : List XmlNode) : List RootItem :=
  l.filterMap fun n =>
    if isS14ParaB n then some (.heading (headingContentOf n)) else none

/-- No child is a `chapter` element. -/
def noChapterChildB (l : List XmlNode) : Bool :=
  l.all fun n => !(nodeNameOf n == "chapter")

mutual

/-- Every non-`eid` `verse` element in the subtree carries a number attribute
that parses to a value of at least 1. -/
def versesOkN : XmlNode → Bool
  | .text _ => true
  | .elem nm attrs ch =>
    (if nm == "verse" && !(hasAttrL attrs "eid") then
      match milestoneNumber attrs with
      | some v => decide ((1 : Int) ≤ v)
      | none => false
     else true) && versesOkF ch

def versesOkF : XmlForest → Bool
  | .nil => true
  | .cons n rest => versesOkN n && versesOkF rest

end

/-- Modelled from the spec: `replaceSpacesWithUnderscores` lives in
`src/generation/api.ts`, which is not part of the sources provided (only its
test is); the spec states that it replaces every ASCII space with an
underscore and escapes nothing else. -/
def replaceSpacesWithUnderscores (s : String) : String :=
  String.mk (s.data.map fun c => if c = ' ' then '_' else c)

/-- Shorthand for a document element with the given children. -/
def mkDoc (l : List XmlNode) : XmlNode :=
  .elem "usx" [] (XmlForest.ofList l)

/-- Shorthand for an element with children given as a list. -/
def pe (nm : String) (a : List (String × String)) (l : List XmlNode) : XmlNode :=
  .elem nm a (XmlForest.ofList l)

/-- Two chapters with one footnote each: exhibits the note counter running on
across chapters. -/
def cDocC1 : XmlNode := mkDoc [
  pe "book" [("code", "GEN")] [],
  pe "chapter" [("number", "1")] [],
  pe "para" [("style", "m")] [pe "verse" [("number", "1")] [],
    .text "In the beginning",
    pe "note" [("style", "f"), ("caller", "+")] [.text "1:1 In the beginning"]],
  pe "chapter" [("eid", "GEN 1")] [],
  pe "chapter" [("number", "2")] [],
  pe "para" [("style", "m")] [pe "verse" [("number", "1")] [],
    .text "Second",
    pe "note" [("style", "f")] [.text "note two"]]]

/-- Two `wj` chars separated by a space: the space entry is dropped by the
final trim, leaving two adjacent identically formatted `Text` entries. -/
def cDocC2 : XmlNode := mkDoc [
  pe "book" [("code", "GEN")] [],
  pe "chapter" [("number", "1")] [],
  pe "para" [] [pe "verse" [("number", "1")] [],
    pe "char" [("style", "wj")] [.text "a"], .text " ",
    pe "char" [("style", "wj")] [.text "b"]]]

/-- Verse milestones numbered 2 and then 0: the parser copies them verbatim. -/
def cDocC3 : XmlNode := mkDoc [
  pe "book" [("code", "GEN")] [],
  pe "chapter" [("number", "1")] [],
  pe "para" [] [pe "verse" [("number", "2")] [], .text "x",
    pe "verse" [("number", "0")] [], .text "y"]]

/-- The poetry-tagging scenario: a `q2` paragraph with a `wj` span followed by
plain text, under a verse opened in the previous paragraph. -/
def cDocC4 : XmlNode := mkDoc [
  pe "book" [("code", "GEN")] [],
  pe "chapter" [("number", "1")] [],
  pe "para" [("style", "m")] [pe "verse" [("number", "1")] []],
  pe "para" [("style", "q2")] [pe "char" [("style", "wj")] [.text "blessed"],
    .text " are the poor"]]

/-- A first `book` element with an empty `code` next to one with a real code:
`querySelector('book[code]')` still returns the first. -/
def cDocC6 : XmlNode := mkDoc [
  pe "book" [("code", "")] [],
  pe "book" [("code", "GEN")] []]

/-- Title paragraphs `mt1`, `mt2`, `mt3` where the middle one is empty. -/
def cDocC7 : XmlNode := mkDoc [
  pe "book" [("code", "GEN")] [],
  pe "para" [("style", "mt1")] [.text "A"],
  pe "para" [("style", "mt2")] [],
  pe "para" [("style", "mt3")] [.text "B"]]

/-- Root-level children of every flavour but no chapter: a heading paragraph,
an ignored paragraph, a loose verse milestone and loose text. -/
def cDocC9 : XmlNode := mkDoc [
  pe "book" [("code", "GEN")] [],
  pe "para" [("style", "s1")] [.text "Head"],
  pe "para" [("style", "ip")] [.text "intro"],
  pe "verse" [("number", "1")] [],
  .text "loose"]

/-- Chapter and verse milestones with no `number` attribute at all. -/
def cDocC10 : XmlNode := mkDoc [
  pe "book" [("code", "GEN")] [],
  pe "chapter" [] [],
  pe "para" [] [pe "verse" [] [], .text "hi"]]

/-- A well-formed inline array: no empty payloads, and obtained by the final
trim pass from a sequence whose adjacent pairs were all kept separate by
`addOrJoin`. -/
def GoodInline (l : List InlineItem) : Prop :=
  noEmptyB l = true ∧ ∃ m, chainOkB m = true ∧ l = trimContent m

/-- The inline arrays carried by one chapter-content item are well formed. -/
def GoodCC : ChapterContent → Prop
  | .verse _ l => GoodInline l
  | .hebrewSubtitle l => GoodInline l
  | _ => True

/-- The footnote invariant of a finished chapter: footnote ids form a
contiguous monotone range, the reference ids in the content are exactly the
footnote ids in order, and all inline arrays are well formed. -/
def ChapterGood (c : Chapter) : Prop :=
  (∃ s, fnIds c.footnotes = List.range' s c.footnotes.length) ∧
  chapterRefIds c = fnIds c.footnotes ∧
  ∀ cc ∈ c.content, GoodCC cc

/-- Invariant of the root walk state: an open chapter satisfies the footnote
invariant relative to the current counter value. -/
def ModeInv : Option OpenChapter → Nat → Prop
  | none, _ => True
  | some oc, ctr =>
    (∃ s, s + oc.fns.length = ctr ∧
      fnIds oc.fns = List.range' s oc.fns.length) ∧
    ccsRefIds oc.ccs = fnIds oc.fns ∧
    ∀ cc ∈ oc.ccs, GoodCC cc

/-- A chapter-content item whose verse number (if it is a verse) is a parsed
value of at least 1. -/
def VerseNumOk : ChapterContent → Prop
  | .verse n _ => ∃ v, n = some v ∧ (1 : Int) ≤ v
  | _ => True

/-- Chapter 1 of `cDocC1` as parsed (used by witnesses). -/
def chapW1 : Chapter :=
  ⟨some 1, [.verse (some 1) [.str "In the beginning", .note 0 none]],
   [⟨0, some "+", "In the beginning", ⟨some 1, some 1⟩⟩]⟩

/-- Chapter 2 of `cDocC1` as parsed: its footnote has id 1, not 0. -/
def chapW1b : Chapter :=
  ⟨some 2, [.verse (some 1) [.str "Second", .note 1 none]],
   [⟨1, none, "note two", ⟨some 2, some 1⟩⟩]⟩

/-- The parse tree of `cDocC1`. -/
def treeW1 : ParseTree :=
  ⟨"GEN", none, none, [.chapter chapW1, .chapter chapW1b]⟩

/-- The single chapter of `cDocC2` as parsed. -/
def chapW2 : Chapter :=
  ⟨some 1, [.verse (some 1) [.text "a" none true, .text "b" none true]], []⟩

/-- The parse tree of `cDocC2`. -/
def treeW2 : ParseTree :=
  ⟨"GEN", none, none, [.chapter chapW2]⟩
theorem refIdsItem_charContent (attrs : List (String × String))
    (ch : XmlForest) : refIdsItem (charContent attrs ch) = [] := by
  unfold charContent
  split_ifs <;> rfl

theorem refIdsL_append (a b : List InlineItem) :
    refIdsL (a ++ b) = refIdsL a ++ refIdsL b := by
  induction a with
  | nil => rfl
  | cons x xs ih => simp [refIdsL, ih]

theorem ccsRefIds_append (a b : List ChapterContent) :
    ccsRefIds (a ++ b) = ccsRefIds a ++ ccsRefIds b := by
  induction a with
  | nil => rfl
  | cons x xs ih => simp [ccsRefIds, ih]

theorem fnIds_append (a b : List Footnote) :
    fnIds (a ++ b) = fnIds a ++ fnIds b := by
  simp [fnIds]

theorem range'_add (s a b : Nat) :
    List.range' s a ++ List.range' (s + a) b = List.range' s (a + b) := by
  have h := List.range'_append s a b 1
  simp only [Nat.one_mul, Nat.mul_one] at h
  rw [Nat.add_comm a b]
  exact h

theorem nodeTextContent_spec (chapNum : Option Int)
    (vnum : Option (Option Int)) (ctr : Nat) (n : XmlNode) :
    (nodeTextContent chapNum vnum ctr n).2.2 =
      ctr + (nodeTextContent chapNum vnum ctr n).2.1.length ∧
    fnIds (nodeTextContent chapNum vnum ctr n).2.1 =
      List.range' ctr (nodeTextContent chapNum vnum ctr n).2.1.length ∧
    refIdsL (nodeTextContent chapNum vnum ctr n).1 =
      fnIds (nodeTextContent chapNum vnum ctr n).2.1 := by
  cases n with
  | text s => simp [nodeTextContent, refIdsL, refIdsItem, fnIds]
  | elem nm attrs ch =>
    unfold nodeTextContent
    dsimp only
    split_ifs with h1 h2 h3
    · exact ⟨rfl, rfl, by
        simp only [refIdsL, List.nil_append]
        rw [refIdsItem_charContent]
        rfl⟩
    · exact ⟨rfl, rfl, rfl⟩
    · exact ⟨rfl, rfl, rfl⟩
    · exact ⟨rfl, rfl, rfl⟩

theorem refIdsL_wrapPoem (p : Option Nat) (l : List InlineItem) :
    refIdsL (l.map (wrapPoem p)) = refIdsL l := by
  induction l with
  | nil => rfl
  | cons x xs ih =>
    simp only [List.map_cons, refIdsL, ih]
    congr 1
    cases p <;> cases x <;> rfl

theorem processVerseNodes_spec (chapNum : Option Int) (vnum : Option Int)
    (l : List (XmlNode × ParentInfo)) : ∀ ctr : Nat,
    (processVerseNodes chapNum vnum l ctr).2.2 =
      ctr + (processVerseNodes chapNum vnum l ctr).2.1.length ∧
    fnIds (processVerseNodes chapNum vnum l ctr).2.1 =
      List.range' ctr (processVerseNodes chapNum vnum l ctr).2.1.length ∧
    refIdsL (processVerseNodes chapNum vnum l ctr).1 =
      fnIds (processVerseNodes chapNum vnum l ctr).2.1 := by
  induction l with
  | nil => intro ctr; exact ⟨rfl, rfl, rfl⟩
  | cons hd rest ih =>
    intro ctr
    obtain ⟨n, par⟩ := hd
    obtain ⟨e1, e2, e3⟩ := nodeTextContent_spec chapNum (some vnum) ctr n
    obtain ⟨f1, f2, f3⟩ := ih (nodeTextContent chapNum (some vnum) ctr n).2.2
    simp only [processVerseNodes]
    refine ⟨?_, ?_, ?_⟩
    · rw [f1, e1, List.length_append]
      omega
    · rw [fnIds_append, e2, f2, e1, List.length_append, range'_add]
    · rw [refIdsL_append, refIdsL_wrapPoem, e3, f3, fnIds_append]

theorem processSubNodes_spec (chapNum : Option Int)
    (l : List XmlNode) : ∀ ctr : Nat,
    (processSubNodes chapNum l ctr).2.2 =
      ctr + (processSubNodes chapNum l ctr).2.1.length ∧
    fnIds (processSubNodes chapNum l ctr).2.1 =
      List.range' ctr (processSubNodes chapNum l ctr).2.1.length ∧
    refIdsL (processSubNodes chapNum l ctr).1 =
      fnIds (processSubNodes chapNum l ctr).2.1 := by
  induction l with
  | nil => intro ctr; exact ⟨rfl, rfl, rfl⟩
  | cons n rest ih =>
    intro ctr
    obtain ⟨e1, e2, e3⟩ := nodeTextContent_spec chapNum none ctr n
    obtain ⟨f1, f2, f3⟩ := ih (nodeTextContent chapNum none ctr n).2.2
    simp only [processSubNodes]
    refine ⟨?_, ?_, ?_⟩
    · rw [f1, e1, List.length_append]
      omega
    · rw [fnIds_append, e2, f2, e1, List.length_append, range'_add]
    · rw [refIdsL_append, e3, f3, fnIds_append]

theorem refIdsL_addOrJoin (l : List InlineItem) (v : InlineItem) :
    refIdsL (addOrJoin l v) = refIdsL l ++ refIdsItem v := by
  induction l with
  | nil => simp [addOrJoin, refIdsL]
  | cons x xs ih =>
    cases xs with
    | nil =>
      cases x <;> cases v <;>
        (simp only [addOrJoin]
         try split_ifs) <;>
        simp [refIdsL, refIdsItem]
    | cons y rest =>
      simp only [addOrJoin, refIdsL, ih, List.append_assoc]

theorem addOrJoin_head (y : InlineItem) (r : List InlineItem)
    (v : InlineItem) :
    ∃ y2 r2, addOrJoin (y :: r) v = y2 :: r2 ∧
      ∀ x, okPairB x y2 = okPairB x y := by
  cases r with
  | nil =>
    cases y with
    | str a =>
      cases v with
      | str b => exact ⟨.str (a ++ b), [], rfl, fun x => by cases x <;> rfl⟩
      | text b q u => exact ⟨.str a, [.text b q u], rfl, fun x => rfl⟩
      | note i p => exact ⟨.str a, [.note i p], rfl, fun x => rfl⟩
    | text a p w =>
      cases v with
      | str b => exact ⟨.text a p w, [.str b], rfl, fun x => rfl⟩
      | text b q u =>
        by_cases h : hasSameFormatting p q w u = true
        · refine ⟨.text (a ++ b) p w, [], ?_, fun x => by cases x <;> rfl⟩
          simp [addOrJoin, h]
        · refine ⟨.text a p w, [.text b q u], ?_, fun x => rfl⟩
          simp only [addOrJoin]
          rw [if_neg h]
      | note i p2 => exact ⟨.text a p w, [.note i p2], rfl, fun x => rfl⟩
    | note i p =>
      cases v with
      | str b => exact ⟨.note i p, [.str b], rfl, fun x => rfl⟩
      | text b q u => exact ⟨.note i p, [.text b q u], rfl, fun x => rfl⟩
      | note j p2 => exact ⟨.note i p, [.note j p2], rfl, fun x => rfl⟩
  | cons z r3 =>
    exact ⟨y, addOrJoin (z :: r3) v, rfl, fun x => rfl⟩

theorem chainOkB_addOrJoin (l : List InlineItem) (v : InlineItem)
    (h : chainOkB l = true) : chainOkB (addOrJoin l v) = true := by
  induction l with
  | nil => rfl
  | cons x xs ih =>
    cases xs with
    | nil =>
      cases x with
      | str a =>
        cases v with
        | str b => rfl
        | text b q u => rfl
        | note i p => rfl
      | text a p w =>
        cases v with
        | str b => rfl
        | text b q u =>
          by_cases hf : hasSameFormatting p q w u = true
          · simp [addOrJoin, hf, chainOkB]
          · simp only [addOrJoin]
            rw [if_neg hf]
            simp [chainOkB, okPairB]
            rw [Bool.not_eq_true] at hf
            exact hf
        | note i p2 => rfl
      | note i p =>
        cases v with
        | str b => rfl
        | text b q u => rfl
        | note j p2 => rfl
    | cons y r =>
      simp only [chainOkB, Bool.and_eq_true] at h
      obtain ⟨h1, h2⟩ := h
      obtain ⟨y2, r2, heq, hok⟩ := addOrJoin_head y r v
      have h3 := ih h2
      rw [heq] at h3
      simp only [addOrJoin, heq, chainOkB, Bool.and_eq_true]
      exact ⟨by rw [hok x]; exact h1, h3⟩

theorem chainOkB_foldl (its : List InlineItem) : ∀ init : List InlineItem,
    chainOkB init = true → chainOkB (its.foldl addOrJoin init) = true := by
  induction its with
  | nil => intro init h; exact h
  | cons x xs ih =>
    intro init h
    exact ih (addOrJoin init x) (chainOkB_addOrJoin init x h)

theorem refIdsL_foldl (its : List InlineItem) : ∀ init : List InlineItem,
    refIdsL (its.foldl addOrJoin init) = refIdsL init ++ refIdsL its := by
  induction its with
  | nil => intro init; simp [refIdsL]
  | cons x xs ih =>
    intro init
    rw [List.foldl_cons, ih (addOrJoin init x), refIdsL_addOrJoin]
    simp [refIdsL, List.append_assoc]

theorem refIdsL_trimContent (l : List InlineItem) :
    refIdsL (trimContent l) = refIdsL l := by
  induction l with
  | nil => rfl
  | cons x xs ih =>
    cases x with
    | str s => simp only [trimContent]; split_ifs <;> simp [refIdsL, refIdsItem, ih]
    | text t p w => simp only [trimContent]; split_ifs <;> simp [refIdsL, refIdsItem, ih]
    | note i p => simp only [trimContent, refIdsL, ih]

theorem noEmptyB_trimContent (l : List InlineItem) :
    noEmptyB (trimContent l) = true := by
  induction l with
  | nil => rfl
  | cons x xs ih =>
    cases x with
    | str s =>
      simp only [trimContent]
      split_ifs with h
      · exact ih
      · simp only [noEmptyB, List.all_cons, Bool.and_eq_true]
        exact ⟨by simp [itemNonEmpty, h], ih⟩
    | text t p w =>
      simp only [trimContent]
      split_ifs with h
      · exact ih
      · simp only [noEmptyB, List.all_cons, Bool.and_eq_true]
        exact ⟨by simp [itemNonEmpty, h], ih⟩
    | note i p =>
      simp only [trimContent, noEmptyB, List.all_cons, Bool.and_eq_true]
      exact ⟨rfl, ih⟩

theorem refIdsL_mkInline (its : List InlineItem) :
    refIdsL (mkInline its) = refIdsL its := by
  unfold mkInline
  rw [refIdsL_trimContent, refIdsL_foldl]
  rfl

theorem goodInline_mkInline (its : List InlineItem) :
    GoodInline (mkInline its) :=
  ⟨noEmptyB_trimContent _, its.foldl addOrJoin [], chainOkB_foldl its [] rfl, rfl⟩

theorem paraVerses_spec (pi ri : ParentInfo) (domRest : List XmlNode)
    (chapNum : Option Int) (l : List XmlNode) : ∀ ctr : Nat,
    (paraVerses pi ri domRest chapNum l ctr).2.2 =
      ctr + (paraVerses pi ri domRest chapNum l ctr).2.1.length ∧
    fnIds (paraVerses pi ri domRest chapNum l ctr).2.1 =
      List.range' ctr (paraVerses pi ri domRest chapNum l ctr).2.1.length ∧
    ccsRefIds (paraVerses pi ri domRest chapNum l ctr).1 =
      fnIds (paraVerses pi ri domRest chapNum l ctr).2.1 ∧
    ∀ cc ∈ (paraVerses pi ri domRest chapNum l ctr).1, GoodCC cc := by
  induction l with
  | nil => intro ctr; exact ⟨rfl, rfl, rfl, nofun⟩
  | cons n rest ih =>
    intro ctr
    simp only [paraVerses]
    split_ifs with h1 h2 h3
    · exact ⟨rfl, rfl, rfl, nofun⟩
    · exact ih ctr
    · obtain ⟨p1, p2, p3⟩ := processVerseNodes_spec chapNum
        (milestoneNumber (attrsOf n))
        ((walkFrom rest pi ri domRest).takeWhile
          fun pr => !(nodeNameOf pr.1 == "verse")) ctr
      obtain ⟨q1, q2, q3, q4⟩ := ih (processVerseNodes chapNum
        (milestoneNumber (attrsOf n))
        ((walkFrom rest pi ri domRest).takeWhile
          fun pr => !(nodeNameOf pr.1 == "verse")) ctr).2.2
      refine ⟨?_, ?_, ?_, ?_⟩
      · rw [q1, p1, List.length_append]
        omega
      · rw [fnIds_append, p2, q2, p1, List.length_append, range'_add]
      · simp only [ccsRefIds, ccRefIds]
        rw [refIdsL_mkInline, p3, q3, fnIds_append]
      · intro cc hm
        rcases List.mem_cons.mp hm with rfl | hm2
        · exact goodInline_mkInline _
        · exact q4 cc hm2
    · exact ih ctr

theorem paraContent_spec (attrs : List (String × String)) (ch : XmlForest)
    (domRest : List XmlNode) (chapNum : Option Int) (ri : ParentInfo)
    (ctr : Nat) :
    (paraContent attrs ch domRest chapNum ri ctr).2.2 =
      ctr + (paraContent attrs ch domRest chapNum ri ctr).2.1.length ∧
    fnIds (paraContent attrs ch domRest chapNum ri ctr).2.1 =
      List.range' ctr (paraContent attrs ch domRest chapNum ri ctr).2.1.length ∧
    ccsRefIds (paraContent attrs ch domRest chapNum ri ctr).1 =
      fnIds (paraContent attrs ch domRest chapNum ri ctr).2.1 ∧
    ∀ cc ∈ (paraContent attrs ch domRest chapNum ri ctr).1, GoodCC cc := by
  unfold paraContent
  dsimp only
  split_ifs with h1 h2 h3 h4
  · refine ⟨rfl, rfl, rfl, ?_⟩
    intro cc hm
    rcases List.mem_cons.mp hm with rfl | hm2
    · exact trivial
    · cases hm2
  · refine ⟨rfl, rfl, rfl, ?_⟩
    intro cc hm
    rcases List.mem_cons.mp hm with rfl | hm2
    · exact trivial
    · cases hm2
  · obtain ⟨p1, p2, p3⟩ := processSubNodes_spec chapNum ch.toList ctr
    refine ⟨by rw [p1], by rw [p2], ?_, ?_⟩
    · simp only [ccsRefIds, ccRefIds]
      rw [refIdsL_mkInline, p3, List.append_nil]
    · intro cc hm
      rcases List.mem_cons.mp hm with rfl | hm2
      · exact goodInline_mkInline _
      · cases hm2
  · exact paraVerses_spec ("para", attrs) ri domRest chapNum ch.toList ctr
  · exact ⟨rfl, rfl, rfl, nofun⟩

theorem rootLoop_spec (ri : ParentInfo) (l : List XmlNode) :
    ∀ (mode : Option OpenChapter) (ctr : Nat), ModeInv mode ctr →
    ∀ c : Chapter, RootItem.chapter c ∈ (rootLoop ri l mode ctr).1 →
      ChapterGood c := by
  induction l with
  | nil =>
    intro mode ctr hinv c hc
    cases mode with
    | none => cases hc
    | some oc =>
      simp only [rootLoop] at hc
      rcases List.mem_singleton.mp hc with h
      obtain ⟨⟨s, hs1, hs2⟩, hr, hg⟩ := hinv
      cases h
      exact ⟨⟨s, hs2⟩, hr, hg⟩
  | cons n rest ih =>
    intro mode ctr hinv c hc
    cases mode with
    | none =>
      simp only [rootLoop] at hc
      split_ifs at hc with h1 h2 h3 h4
      · exact ih none ctr trivial c hc
      · refine ih (some ⟨milestoneNumber (attrsOf n), [], []⟩) ctr
          ⟨⟨ctr, by simp [fnIds], rfl⟩, rfl, nofun⟩ c hc
      · rcases List.mem_cons.mp hc with heq | hm
        · cases heq
        · exact ih none ctr trivial c hm
      · exact ih none ctr trivial c hc
      · exact ih none ctr trivial c hc
    | some oc =>
      simp only [rootLoop] at hc
      split_ifs at hc with h1 h2
      · rcases List.mem_cons.mp hc with heq | hm
        · obtain ⟨⟨s, hs1, hs2⟩, hr, hg⟩ := hinv
          cases heq
          exact ⟨⟨s, hs2⟩, hr, hg⟩
        · exact ih none ctr trivial c hm
      · obtain ⟨⟨s, hs1, hs2⟩, hr, hg⟩ := hinv
        obtain ⟨g1, g2, g3, g4⟩ := paraContent_spec (attrsOf n)
          (childForestOf n) rest oc.number ri ctr
        refine ih (some ⟨oc.number, oc.ccs ++
            (paraContent (attrsOf n) (childForestOf n) rest oc.number ri ctr).1,
          oc.fns ++
            (paraContent (attrsOf n) (childForestOf n) rest oc.number ri ctr).2.1⟩)
          (paraContent (attrsOf n) (childForestOf n) rest oc.number ri ctr).2.2
          ⟨⟨s, ?_, ?_⟩, ?_, ?_⟩ c hc
        · rw [List.length_append]
          omega
        · rw [fnIds_append, hs2, List.length_append]
          have : ctr = s + oc.fns.length := hs1.symm
          rw [g2, this, range'_add]
        · rw [ccsRefIds_append, fnIds_append, hr, g3]
        · intro cc hm
          rcases List.mem_append.mp hm with hm1 | hm2
          · exact hg cc hm1
          · exact g4 cc hm2
      · exact ih (some oc) ctr hinv c hc

theorem parse_ok_content (doc : XmlNode) (t : ParseTree)
    (h : parse doc = .ok t) :
    t.content = (rootLoop (nodeNameOf doc, attrsOf doc)
      (childNodesOf doc) none 0).1 := by
  unfold parse at h
  cases hb : qsFirstF isBookCode (childForestOf doc) with
  | none => rw [hb] at h; cases h
  | some b =>
    rw [hb] at h
    dsimp only at h
    split_ifs at h with hx hy
    · cases h; rfl
    · cases h; rfl

theorem chaptersOf_mem (t : ParseTree) (c : Chapter) :
    c ∈ chaptersOf t ↔ RootItem.chapter c ∈ t.content := by
  unfold chaptersOf
  rw [List.mem_filterMap]
  constructor
  · rintro ⟨a, ha, hfa⟩
    cases a with
    | chapter c2 => cases hfa; exact ha
    | heading _ => cases hfa
  · intro hm
    exact ⟨RootItem.chapter c, hm, rfl⟩

theorem countP_noteId (fns : List Footnote) (r : Nat) :
    (fns.countP fun f => f.noteId == r) = (fnIds fns).count r := by
  unfold fnIds
  rw [List.count, List.countP_map]
  rfl

theorem versesOkF_toList : ∀ f : XmlForest, versesOkF f = true →
    ∀ n ∈ f.toList, versesOkN n = true
  | .nil, _, n, hn => by cases hn
  | .cons a rest, h, n, hn => by
    simp only [versesOkF, Bool.and_eq_true] at h
    rcases List.mem_cons.mp hn with rfl | hm
    · exact h.1
    · exact versesOkF_toList rest h.2 n hm

theorem versesOkN_children (n : XmlNode) (h : versesOkN n = true) :
    ∀ m ∈ (childForestOf n).toList, versesOkN m = true := by
  cases n with
  | text s => intro m hm; cases hm
  | elem nm attrs ch =>
    simp only [versesOkN, Bool.and_eq_true] at h
    exact versesOkF_toList ch h.2

theorem paraVerses_vok (pi ri : ParentInfo) (domRest : List XmlNode)
    (chapNum : Option Int) (l : List XmlNode) : ∀ ctr : Nat,
    (∀ n ∈ l, versesOkN n = true) →
    ∀ cc ∈ (paraVerses pi ri domRest chapNum l ctr).1, VerseNumOk cc := by
  induction l with
  | nil => intro ctr _ cc hm; cases hm
  | cons n rest ih =>
    intro ctr hl cc hm
    have hl2 : ∀ m ∈ rest, versesOkN m = true :=
      fun m hmm => hl m (List.mem_cons_of_mem n hmm)
    simp only [paraVerses] at hm
    split_ifs at hm with h1 h2 h3
    · cases hm
    · exact ih ctr hl2 cc hm
    · rcases List.mem_cons.mp hm with rfl | hm2
      · have hn := hl n (List.mem_cons_self n rest)
        cases n with
        | text s => simp [nodeNameOf] at h2
        | elem nm attrs ch =>
          have hnm : nm = "verse" := by
            simpa [nodeNameOf] using h2
          subst hnm
          simp only [versesOkN, Bool.and_eq_true] at hn
          obtain ⟨hn1, _⟩ := hn
          rw [if_pos ?_] at hn1
          · simp only [attrsOf]
            cases hmn : milestoneNumber attrs with
            | none => rw [hmn] at hn1; cases hn1
            | some v =>
              rw [hmn] at hn1
              exact ⟨v, rfl, of_decide_eq_true hn1⟩
          · simp only [attrsOf] at h3
            exact ⟨rfl, by simp [h3]⟩
      · exact ih _ hl2 cc hm2
    · exact ih ctr hl2 cc hm

theorem paraContent_vok (attrs : List (String × String)) (ch : XmlForest)
    (domRest : List XmlNode) (chapNum : Option Int) (ri : ParentInfo)
    (ctr : Nat) (h : ∀ n ∈ ch.toList, versesOkN n = true) :
    ∀ cc ∈ (paraContent attrs ch domRest chapNum ri ctr).1, VerseNumOk cc := by
  unfold paraContent
  dsimp only
  split_ifs with h1 h2 h3 h4
  · intro cc hm
    rcases List.mem_cons.mp hm with rfl | hm2
    · exact trivial
    · cases hm2
  · intro cc hm
    rcases List.mem_cons.mp hm with rfl | hm2
    · exact trivial
    · cases hm2
  · intro cc hm
    rcases List.mem_cons.mp hm with rfl | hm2
    · exact trivial
    · cases hm2
  · exact paraVerses_vok ("para", attrs) ri domRest chapNum ch.toList ctr h
  · intro cc hm; cases hm

theorem rootLoop_vok (ri : ParentInfo) (l : List XmlNode) :
    ∀ (mode : Option OpenChapter) (ctr : Nat),
    (∀ n ∈ l, versesOkN n = true) →
    (∀ oc, mode = some oc → ∀ cc ∈ oc.ccs, VerseNumOk cc) →
    ∀ c : Chapter, RootItem.chapter c ∈ (rootLoop ri l mode ctr).1 →
      ∀ cc ∈ c.content, VerseNumOk cc := by
  induction l with
  | nil =>
    intro mode ctr _ hmv c hc
    cases mode with
    | none => cases hc
    | some oc =>
      simp only [rootLoop] at hc
      rcases List.mem_singleton.mp hc with h
      cases h
      exact hmv oc rfl
  | cons n rest ih =>
    intro mode ctr hl hmv c hc
    have hl2 : ∀ m ∈ rest, versesOkN m = true :=
      fun m hmm => hl m (List.mem_cons_of_mem n hmm)
    cases mode with
    | none =>
      simp only [rootLoop] at hc
      split_ifs at hc with h1 h2 h3 h4
      · exact ih none ctr hl2 nofun c hc
      · exact ih (some ⟨milestoneNumber (attrsOf n), [], []⟩) ctr hl2
          (fun oc hoc => by cases hoc; exact nofun) c hc
      · rcases List.mem_cons.mp hc with heq | hm
        · cases heq
        · exact ih none ctr hl2 nofun c hm
      · exact ih none ctr hl2 nofun c hc
      · exact ih none ctr hl2 nofun c hc
    | some oc =>
      simp only [rootLoop] at hc
      split_ifs at hc with h1 h2
      · rcases List.mem_cons.mp hc with heq | hm
        · cases heq
          exact hmv oc rfl
        · exact ih none ctr hl2 nofun c hm
      · refine ih (some ⟨oc.number, oc.ccs ++
            (paraContent (attrsOf n) (childForestOf n) rest oc.number ri ctr).1,
          oc.fns ++
            (paraContent (attrsOf n) (childForestOf n) rest oc.number ri ctr).2.1⟩)
          (paraContent (attrsOf n) (childForestOf n) rest oc.number ri ctr).2.2
          hl2 (fun oc2 hoc2 => ?_) c hc
        cases hoc2
        intro cc hm
        rcases List.mem_append.mp hm with hm1 | hm2
        · exact hmv oc rfl cc hm1
        · exact paraContent_vok (attrsOf n) (childForestOf n) rest oc.number
            ri ctr (versesOkN_children n (hl n (List.mem_cons_self n rest)))
            cc hm2
      · exact ih (some oc) ctr hl2 hmv c hc

theorem isS14ParaB_of (n : XmlNode) (h2 : (nodeNameOf n == "para") = true)
    (h3 : styleIsS14 (attrsOf n) = true) : isS14ParaB n = true := by
  cases n with
  | text s => simp [nodeNameOf] at h2
  | elem nm attrs ch =>
    simp only [nodeNameOf] at h2
    simp only [isS14ParaB, attrsOf] at h3 ⊢
    simp [h2, h3]

theorem rootLoop_items (ri : ParentInfo) (l : List XmlNode) :
    ∀ (mode : Option OpenChapter) (ctr : Nat),
    ∀ item ∈ (rootLoop ri l mode ctr).1,
      (∃ c, item = RootItem.chapter c) ∨
      (∃ p, p ∈ l ∧ isS14ParaB p = true ∧
        item = RootItem.heading (headingContentOf p)) := by
  induction l with
  | nil =>
    intro mode ctr item hm
    cases mode with
    | none => cases hm
    | some oc =>
      simp only [rootLoop] at hm
      rcases List.mem_singleton.mp hm with h
      exact Or.inl ⟨_, h⟩
  | cons n rest ih =>
    intro mode ctr item hm
    have lift : (∃ c, item = RootItem.chapter c) ∨
        (∃ p, p ∈ rest ∧ isS14ParaB p = true ∧
          item = RootItem.heading (headingContentOf p)) →
        (∃ c, item = RootItem.chapter c) ∨
        (∃ p, p ∈ n :: rest ∧ isS14ParaB p = true ∧
          item = RootItem.heading (headingContentOf p)) := by
      rintro (hc | ⟨p, hp, hs, he⟩)
      · exact Or.inl hc
      · exact Or.inr ⟨p, List.mem_cons_of_mem n hp, hs, he⟩
    cases mode with
    | none =>
      simp only [rootLoop] at hm
      split_ifs at hm with h1 h2 h3 h4
      · exact lift (ih none ctr item hm)
      · exact lift (ih (some ⟨milestoneNumber (attrsOf n), [], []⟩) ctr item hm)
      · rcases List.mem_cons.mp hm with heq | hm2
        · exact Or.inr ⟨n, List.mem_cons_self n rest,
            isS14ParaB_of n h3 h4, heq⟩
        · exact lift (ih none ctr item hm2)
      · exact lift (ih none ctr item hm)
      · exact lift (ih none ctr item hm)
    | some oc =>
      simp only [rootLoop] at hm
      split_ifs at hm with h1 h2
      · rcases List.mem_cons.mp hm with heq | hm2
        · exact Or.inl ⟨_, heq⟩
        · exact lift (ih none ctr item hm2)
      · exact lift (ih (some ⟨oc.number, oc.ccs ++ _, oc.fns ++ _⟩) _ item hm)
      · exact lift (ih (some oc) ctr item hm)

theorem rootLoop_noChapters (ri : ParentInfo) (l : List XmlNode) :
    ∀ ctr : Nat, noChapterChildB l = true →
    (rootLoop ri l none ctr).1 = specRootHeadings l := by
  induction l with
  | nil => intro ctr _; rfl
  | cons n rest ih =>
    intro ctr h
    simp only [noChapterChildB, List.all_cons, Bool.and_eq_true] at h
    obtain ⟨hn, hrest⟩ := h
    have hrest2 : noChapterChildB rest = true := hrest
    simp only [rootLoop]
    split_ifs with h1 h2 h3 h4
    · rw [Bool.not_eq_true'] at hn
      rw [h1] at hn
      cases hn
    · rw [Bool.not_eq_true'] at hn
      rw [h1] at hn
      cases hn
    · have hs : isS14ParaB n = true := isS14ParaB_of n h3 h4
      rw [ih ctr hrest2]
      simp [specRootHeadings, List.filterMap_cons, hs]
    · have hs : isS14ParaB n = false := by
        cases n with
        | text s => rfl
        | elem nm attrs ch =>
          simp only [isS14ParaB]
          simp only [attrsOf] at h4
          simp [h4]
      rw [ih ctr hrest2]
      simp [specRootHeadings, List.filterMap_cons, hs]
    · have hs : isS14ParaB n = false := by
        cases n with
        | text s => rfl
        | elem nm attrs ch =>
          simp only [isS14ParaB]
          simp only [nodeNameOf] at h3
          simp [h3]
      rw [ih ctr hrest2]
      simp [specRootHeadings, List.filterMap_cons, hs]

mutual

theorem qsFirstN_sat (p : XmlNode → Bool) :
    ∀ (n : XmlNode) (e : XmlNode), qsFirstN p n = some e → p e = true
  | .text _, e, h => by cases h
  | .elem nm a ch, e, h => by
    rw [qsFirstN] at h
    split_ifs at h with hp
    · cases h; exact hp
    · exact qsFirstF_sat p ch e h

theorem qsFirstF_sat (p : XmlNode → Bool) :
    ∀ (f : XmlForest) (e : XmlNode), qsFirstF p f = some e → p e = true
  | .nil, e, h => by cases h
  | .cons n rest, e, h => by
    rw [qsFirstF] at h
    cases hn : qsFirstN p n with
    | some x => rw [hn] at h; cases h; exact qsFirstN_sat p n e hn
    | none => rw [hn] at h; exact qsFirstF_sat p rest e h

end

/-- C1 (amended): footnote ids inside a chapter form a contiguous monotone
range (hence are unique per chapter), the reference ids occurring in the
chapter's content are exactly the footnote ids in order, and therefore every
footnote reference resolves to exactly one footnote of its own chapter.  The
note counter is scoped to the parser instance and is not reset at chapter
starts, so only the first footnote of the whole document is numbered 0. -/
theorem claimC1 (doc : XmlNode) (t : ParseTree) (h : parse doc = .ok t) :
    ∀ c ∈ chaptersOf t,
      (∃ s, fnIds c.footnotes = List.range' s c.footnotes.length) ∧
      chapterRefIds c = fnIds c.footnotes ∧
      ∀ r ∈ chapterRefIds c,
        (c.footnotes.countP fun f => f.noteId == r) = 1 := by
  intro c hc
  have hmem : RootItem.chapter c ∈ t.content := (chaptersOf_mem t c).mp hc
  rw [parse_ok_content doc t h] at hmem
  obtain ⟨⟨s, hids⟩, hrefs, _⟩ := rootLoop_spec (nodeNameOf doc, attrsOf doc)
    (childNodesOf doc) none 0 trivial c hmem
  refine ⟨⟨s, hids⟩, hrefs, ?_⟩
  intro r hr
  rw [countP_noteId]
  rw [hrefs, hids] at hr
  rw [hids]
  exact List.count_eq_one_of_mem (List.nodup_range' s c.footnotes.length) hr

/-- C1 counterexample: in a two-chapter document with one footnote per
chapter the second chapter's only footnote has id 1, refuting the claim that
the counter is reset per chapter and that the first footnote of every chapter
has id 0. -/
theorem claimC1_counterexample :
    (parse cDocC1).map (fun t => (chaptersOf t).map fun c => fnIds c.footnotes) =
      .ok [[0], [1]] ∧
    ¬ ∀ ids ∈ [[0], [1]], List.head? ids = some 0 :=
  ⟨rfl, by decide⟩

/-- C1 witness: the amended claim evaluated on chapter 1 of `cDocC1`. -/
theorem claimC1_witness :
    (∃ s, fnIds chapW1.footnotes = List.range' s chapW1.footnotes.length) ∧
    chapterRefIds chapW1 = fnIds chapW1.footnotes ∧
    ∀ r ∈ chapterRefIds chapW1,
      (chapW1.footnotes.countP fun f => f.noteId == r) = 1 :=
  claimC1 cDocC1 treeW1 rfl chapW1 (by decide)

/-- C2 (amended): every verse and Hebrew-subtitle content array has no empty
string and no empty text entry, and it is the final trim pass applied to a
sequence in which no two adjacent entries were both strings or both texts
with identical formatting; since that pass deletes entries that become empty,
the delivered array itself can contain two adjacent identically formatted
texts (or strings). -/
theorem claimC2 (doc : XmlNode) (t : ParseTree) (h : parse doc = .ok t) :
    ∀ c ∈ chaptersOf t, ∀ arr ∈ inlineArraysOfChapter c,
      noEmptyB arr = true ∧
      ∃ m, chainOkB m = true ∧ arr = trimContent m := by
  intro c hc arr harr
  have hmem : RootItem.chapter c ∈ t.content := (chaptersOf_mem t c).mp hc
  rw [parse_ok_content doc t h] at hmem
  obtain ⟨_, _, hgood⟩ := rootLoop_spec (nodeNameOf doc, attrsOf doc)
    (childNodesOf doc) none 0 trivial c hmem
  unfold inlineArraysOfChapter at harr
  rw [List.mem_filterMap] at harr
  obtain ⟨cc, hcc, hfa⟩ := harr
  have hg := hgood cc hcc
  cases cc with
  | verse nv l => cases hfa; exact hg
  | hebrewSubtitle l => cases hfa; exact hg
  | heading _ => cases hfa
  | lineBreak => cases hfa

/-- C2 counterexample: two `wj` spans separated by one space produce a verse
whose content is two adjacent `Text` entries with identical formatting,
refuting the adjacency half of the claim. -/
theorem claimC2_counterexample :
    (parse cDocC2).map (fun t => (chaptersOf t).map inlineArraysOfChapter) =
      .ok [[[.text "a" none true, .text "b" none true]]] ∧
    chainOkB [.text "a" none true, .text "b" none true] = false :=
  ⟨rfl, rfl⟩

/-- C2 witness: the amended claim evaluated on the chapter of `cDocC2`. -/
theorem claimC2_witness :
    noEmptyB [InlineItem.text "a" none true, .text "b" none true] = true ∧
    ∃ m, chainOkB m = true ∧
      [InlineItem.text "a" none true, .text "b" none true] = trimContent m :=
  claimC2 cDocC2 treeW2 rfl chapW2 (by decide)
    [InlineItem.text "a" none true, .text "b" none true] (by decide)

/-- C3 (amended): verse numbers are copied verbatim from the milestone
`number` attributes (0 when absent or empty) without any validation, so every
produced verse has number at least 1 whenever every non-`eid` verse milestone
of the document parses to at least 1 (a sufficient condition: a milestone
inside an ignored paragraph produces no verse at all); neither the lower
bound nor strict increase per chapter is enforced by the parser. -/
theorem claimC3 (doc : XmlNode) (t : ParseTree) (h : parse doc = .ok t)
    (hok : versesOkN doc = true) :
    ∀ c ∈ chaptersOf t, ∀ cc ∈ c.content, ∀ (nv : Option Int)
      (arr : List InlineItem), cc = ChapterContent.verse nv arr →
      ∃ v, nv = some v ∧ (1 : Int) ≤ v := by
  intro c hc cc hcc nv arr heq
  have hmem : RootItem.chapter c ∈ t.content := (chaptersOf_mem t c).mp hc
  rw [parse_ok_content doc t h] at hmem
  have hvv := rootLoop_vok (nodeNameOf doc, attrsOf doc) (childNodesOf doc)
    none 0 (versesOkN_children doc hok) nofun c hmem cc hcc
  rw [heq] at hvv
  exact hvv

/-- C3 counterexample: milestones numbered 2 and then 0 yield verses 2 and 0
in that order, violating both the lower bound and strict increase. -/
theorem claimC3_counterexample :
    (parse cDocC3).map (fun t => (chaptersOf t).map fun c =>
      c.content.map fun cc =>
        match cc with
        | ChapterContent.verse n _ => n
        | _ => none) = .ok [[some 2, some 0]] ∧
    ¬ ((1 : Int) ≤ 0) ∧ ¬ ((2 : Int) < 0) :=
  ⟨rfl, by decide, by decide⟩

/-- C3 witness: the amended claim evaluated on verse 1 of `cDocC1`. -/
theorem claimC3_witness :
    ∃ v, (some 1 : Option Int) = some v ∧ (1 : Int) ≤ v :=
  claimC3 cDocC1 treeW1 rfl (by decide) chapW1 (by decide)
    (ChapterContent.verse (some 1) [.str "In the beginning", .note 0 none])
    (by decide) (some 1) [.str "In the beginning", .note 0 none] rfl

/-- C4 (amended): the `q2` scenario yields the two entries
`{text:"blessed", poem:2, wordsOfJesus:true}` and `{text:"are the poor",
poem:2}` — unmerged because their formatting differs, but the second entry
loses its leading space because the final trim pass trims every entry. -/
theorem claimC4 :
    parse cDocC4 = .ok ⟨"GEN", none, none,
      [.chapter ⟨some 1, [.verse (some 1)
        [.text "blessed" (some 2) true, .text "are the poor" (some 2) false]],
        []⟩]⟩ :=
  rfl

/-- C4 counterexample: the produced second entry is `"are the poor"`, not the
claimed `" are the poor"` with a leading space. -/
theorem claimC4_counterexample :
    (parse cDocC4).map (fun t => (chaptersOf t).map fun c => c.content) =
      .ok [[.verse (some 1)
        [.text "blessed" (some 2) true, .text "are the poor" (some 2) false]]] ∧
    ([InlineItem.text "blessed" (some 2) true,
      .text "are the poor" (some 2) false] ≠
     [InlineItem.text "blessed" (some 2) true,
      .text " are the poor" (some 2) false]) :=
  ⟨rfl, by decide⟩

/-- C5: a `note` element of style `f` yields exactly one footnote reference
carrying the freshly allocated id and exactly one footnote whose text is the
collapsed, trimmed note text with any leading `C:V` pattern stripped, whose
caller is the `caller` attribute (`null` when absent or empty) and whose
reference holds the enclosing chapter and verse numbers (verse 0 inside a
Hebrew subtitle); any other note style yields nothing.  The final conjunct
checks on a concrete document that the footnote lands in the enclosing
chapter's footnote list. -/
theorem claimC5 (attrs : List (String × String)) (ch : XmlForest)
    (chapNum : Option Int) (verseNum : Option (Option Int)) (ctr : Nat) :
    (getAttrL attrs "style" = some "f" →
      nodeTextContent chapNum verseNum ctr (.elem "note" attrs ch) =
        ([.note ctr none],
         [⟨ctr, callerOf attrs, noteText (textContentF ch),
           ⟨chapNum, match verseNum with | some vn => vn | none => some 0⟩⟩],
         ctr + 1)) ∧
    (getAttrL attrs "style" ≠ some "f" →
      nodeTextContent chapNum verseNum ctr (.elem "note" attrs ch) =
        ([], [], ctr)) ∧
    parse cDocC1 = .ok ⟨"GEN", none, none,
      [.chapter ⟨some 1,
        [.verse (some 1) [.str "In the beginning", .note 0 none]],
        [⟨0, some "+", "In the beginning", ⟨some 1, some 1⟩⟩]⟩,
       .chapter ⟨some 2,
        [.verse (some 1) [.str "Second", .note 1 none]],
        [⟨1, none, "note two", ⟨some 2, some 1⟩⟩]⟩]⟩ := by
  refine ⟨fun h => ?_, fun h => ?_, rfl⟩
  · simp [nodeTextContent, h]
  · simp only [nodeTextContent]
    rw [if_neg, if_pos]
    · rw [if_neg]
      simp only [beq_iff_eq]
      exact h
    · rfl
    · simp

/-- C5 witness: both branches of C5 applied at concrete notes. -/
theorem claimC5_witness :
    nodeTextContent (some 1) (some (some 1)) 0
      (.elem "note" [("style", "f"), ("caller", "+")]
        (XmlForest.ofList [.text "1:1 In the beginning"])) =
      ([.note 0 none], [⟨0, some "+", "In the beginning", ⟨some 1, some 1⟩⟩], 1) ∧
    nodeTextContent (some 1) (some (some 1)) 0
      (.elem "note" [("style", "x")] (XmlForest.ofList [.text "cross"])) =
      ([], [], 0) := by
  constructor
  · have h := (claimC5 [("style", "f"), ("caller", "+")]
      (XmlForest.ofList [.text "1:1 In the beginning"])
      (some 1) (some (some 1)) 0).1 rfl
    rw [h]
    rfl
  · exact (claimC5 [("style", "x")] (XmlForest.ofList [.text "cross"])
      (some 1) (some (some 1)) 0).2.1 (by decide)

/-- C6 (amended): parse fails exactly when no descendant `book` element
carries a `code` attribute or when the first such element's code is empty;
on success the tree id is that first element's code.  (The original claim is
refuted because a later `book` with a non-empty code cannot save a document
whose first code-bearing `book` has an empty code.) -/
theorem claimC6 (doc : XmlNode) :
    ((parse doc).isOk = true ↔
      ∃ e s, qsFirstF isBookCode (childForestOf doc) = some e ∧
        getAttrOf e "code" = some s ∧ s ≠ "") ∧
    ∀ t, parse doc = .ok t →
      ∃ e, qsFirstF isBookCode (childForestOf doc) = some e ∧
        getAttrOf e "code" = some t.id ∧ t.id ≠ "" := by
  cases hb : qsFirstF isBookCode (childForestOf doc) with
  | none =>
    constructor
    · constructor
      · intro h
        exfalso
        unfold parse at h
        rw [hb] at h
        cases h
      · rintro ⟨e, s2, he, _⟩
        cases he
    · intro t ht
      unfold parse at ht
      rw [hb] at ht
      cases ht
  | some b =>
    have hsat : isBookCode b = true := qsFirstF_sat isBookCode _ b hb
    simp only [isBookCode, Bool.and_eq_true] at hsat
    obtain ⟨hnb, hsome⟩ := hsat
    cases ha : getAttrOf b "code" with
    | none => rw [ha] at hsome; cases hsome
    | some s =>
      by_cases hs : s = ""
      · subst hs
        constructor
        · constructor
          · intro h
            unfold parse at h
            rw [hb] at h
            dsimp only at h
            rw [ha] at h
            cases h
          · rintro ⟨e, s2, he, ha2, hne2⟩
            cases he
            rw [ha] at ha2
            cases ha2
            exact absurd rfl hne2
        · intro t ht
          unfold parse at ht
          rw [hb] at ht
          dsimp only at ht
          rw [ha] at ht
          cases ht
      · constructor
        · constructor
          · intro _
            exact ⟨b, s, rfl, ha, hs⟩
          · intro _
            unfold parse
            rw [hb]
            dsimp only
            rw [ha]
            have : ((some s).getD "" == "") = false := by
              simp only [Option.getD_some]
              rw [beq_eq_false_iff_ne]
              exact hs
            rw [this]
            rfl
        · intro t ht
          unfold parse at ht
          rw [hb] at ht
          dsimp only at ht
          rw [ha] at ht
          have hcond : ((some s).getD "" == "") = false := by
            simp only [Option.getD_some]
            rw [beq_eq_false_iff_ne]
            exact hs
          rw [hcond] at ht
          simp only [Bool.false_eq_true, if_false] at ht
          cases ht
          exact ⟨b, rfl, ha, hs⟩

/-- C6 counterexample: a document holding a `book` with empty code before a
`book` with code `GEN` contains a book element with a non-empty code, yet
parse still fails. -/
theorem claimC6_counterexample :
    (qsFirstF (fun n => isBookCode n && !((getAttrOf n "code").getD "" == ""))
      (childForestOf cDocC6)).isSome = true ∧
    parse cDocC6 = .error "The book element does not contain a code attribute." :=
  ⟨rfl, rfl⟩

/-- C6 witness: the success direction of C6 evaluated on `cDocC10`. -/
theorem claimC6_witness :
    ∃ e, qsFirstF isBookCode (childForestOf cDocC10) = some e ∧
      getAttrOf e "code" = some "GEN" ∧ ("GEN" : String) ≠ "" :=
  (claimC6 cDocC10).2 ⟨"GEN", none, none,
    [.chapter ⟨some 0, [.verse (some 0) [.str "hi"]], []⟩]⟩ rfl

/-- C7 (amended): the header is the text content of the first
`para[style="h"]` descendant, and the title joins the non-empty text contents
of the `mt1`/`mt2`/`mt3` paragraphs (in document order) with single spaces,
the field being absent exactly when no such paragraph exists.  (The original
claim joined all text contents, which inserts a doubled space around an empty
title paragraph.) -/
theorem claimC7 (doc : XmlNode) (t : ParseTree) (h : parse doc = .ok t) :
    t.header = (qsFirstF isHeaderPara (childForestOf doc)).map textContentN ∧
    t.title = (if 0 < (qsAllF isTitlePara (childForestOf doc)).length then
      some (String.intercalate " "
        (((qsAllF isTitlePara (childForestOf doc)).map textContentN).filter
          fun s => !(s == "")))
      else none) := by
  unfold parse at h
  cases hb : qsFirstF isBookCode (childForestOf doc) with
  | none => rw [hb] at h; cases h
  | some b =>
    rw [hb] at h
    dsimp only at h
    split_ifs at h with hx hy
    · cases h
      constructor
      · rfl
      · rw [if_pos hy]
    · cases h
      constructor
      · rfl
      · rw [if_neg hy]

/-- C7 counterexample: with an empty `mt2` between `mt1` "A" and `mt3` "B"
the parser produces title "A B" while joining all three text contents gives
"A  B". -/
theorem claimC7_counterexample :
    parse cDocC7 = .ok ⟨"GEN", none, some "A B", []⟩ ∧
    String.intercalate " "
      ((qsAllF isTitlePara (childForestOf cDocC7)).map textContentN) = "A  B" ∧
    ("A B" : String) ≠ "A  B" :=
  ⟨rfl, rfl, by decide⟩

/-- C7 witness: C7 evaluated on `cDocC7`. -/
theorem claimC7_witness :
    (⟨"GEN", none, some "A B", []⟩ : ParseTree).header =
      (qsFirstF isHeaderPara (childForestOf cDocC7)).map textContentN ∧
    (⟨"GEN", none, some "A B", []⟩ : ParseTree).title =
      (if 0 < (qsAllF isTitlePara (childForestOf cDocC7)).length then
        some (String.intercalate " "
          (((qsAllF isTitlePara (childForestOf cDocC7)).map textContentN).filter
            fun s => !(s == "")))
      else none) :=
  claimC7 cDocC7 ⟨"GEN", none, some "A B", []⟩ rfl

/-- C8: `replaceSpacesWithUnderscores` preserves length, is idempotent, its
output contains no space, every position that held a space now holds an
underscore, and every other code point is unchanged. -/
theorem claimC8 (s : String) :
    (replaceSpacesWithUnderscores s).data.length = s.data.length ∧
    replaceSpacesWithUnderscores (replaceSpacesWithUnderscores s) =
      replaceSpacesWithUnderscores s ∧
    ' ' ∉ (replaceSpacesWithUnderscores s).data ∧
    (∀ i : Nat, s.data.getD i '_' = ' ' →
      (replaceSpacesWithUnderscores s).data.getD i '_' = '_') ∧
    (∀ i : Nat, s.data.getD i '_' ≠ ' ' →
      (replaceSpacesWithUnderscores s).data.getD i '_' = s.data.getD i '_') := by
  have hdata : ∀ t : String, (replaceSpacesWithUnderscores t).data
      = t.data.map fun c => if c = ' ' then '_' else c := fun t => rfl
  refine ⟨?_, ?_, ?_, ?_, ?_⟩
  · rw [hdata, List.length_map]
  · apply String.ext
    rw [hdata, hdata, List.map_map]
    apply List.map_congr_left
    intro a _
    by_cases h : a = ' ' <;> simp [h]
  · rw [hdata]
    intro hmem
    rcases List.mem_map.mp hmem with ⟨a, _, ha⟩
    by_cases h : a = ' ' <;> simp [h] at ha
  · intro i hi
    rw [hdata]
    rw [List.getD_eq_getElem?_getD] at hi ⊢
    rw [List.getElem?_map]
    cases hx : s.data[i]? with
    | none => rw [hx] at hi; simp at hi
    | some c =>
      rw [hx] at hi
      simp at hi
      simp [hi]
  · intro i hi
    rw [hdata]
    simp only [List.getD_eq_getElem?_getD, List.getElem?_map] at hi ⊢
    cases hx : s.data[i]? with
    | none => simp [hx]
    | some c =>
      simp only [hx, Option.map_some', Option.getD_some] at hi ⊢
      exact if_neg hi

/-- C8 witness: the positional conjuncts of C8 evaluated on "a b". -/
theorem claimC8_witness :
    (replaceSpacesWithUnderscores "a b").data.getD 1 '_' = '_' ∧
    (replaceSpacesWithUnderscores "a b").data.getD 0 '_' = "a b".data.getD 0 '_' :=
  ⟨(claimC8 "a b").2.2.2.1 1 (by decide), (claimC8 "a b").2.2.2.2 0 (by decide)⟩

/-- C9: every root item of a parse tree is a chapter or a heading coming from
a root-level paragraph of style `s1`-`s4`, and a chapter-free document's root
content is exactly those headings, so paragraphs of other styles, loose text
and loose verse milestones contribute no root item. -/
theorem claimC9 (doc : XmlNode) (t : ParseTree) (h : parse doc = .ok t) :
    (∀ item ∈ t.content,
      (∃ c, item = RootItem.chapter c) ∨
      (∃ p, p ∈ childNodesOf doc ∧ isS14ParaB p = true ∧
        item = RootItem.heading (headingContentOf p))) ∧
    (noChapterChildB (childNodesOf doc) = true →
      t.content = specRootHeadings (childNodesOf doc)) := by
  rw [parse_ok_content doc t h]
  constructor
  · exact rootLoop_items (nodeNameOf doc, attrsOf doc) (childNodesOf doc)
      none 0
  · exact rootLoop_noChapters (nodeNameOf doc, attrsOf doc)
      (childNodesOf doc) 0

/-- C9 witness: C9 evaluated on a chapter-free document with one `s1`
paragraph, an ignored paragraph, a loose verse milestone and loose text. -/
theorem claimC9_witness :
    (⟨"GEN", none, none, [.heading ["Head"]]⟩ : ParseTree).content =
      specRootHeadings (childNodesOf cDocC9) :=
  (claimC9 cDocC9 ⟨"GEN", none, none, [.heading ["Head"]]⟩ rfl).2 rfl

/-- C10: a `chapter` or `verse` milestone without an `eid` attribute and
without a `number` attribute still opens a chapter or verse, whose number is
0 (the attribute defaults to the string "0"); the parser never fails on a
missing number. -/
theorem claimC10 :
    (∀ attrs : List (String × String), getAttrL attrs "number" = none →
      milestoneNumber attrs = some 0) ∧
    parse cDocC10 = .ok ⟨"GEN", none, none,
      [.chapter ⟨some 0, [.verse (some 0) [.str "hi"]], []⟩]⟩ := by
  refine ⟨fun attrs h => ?_, rfl⟩
  simp only [milestoneNumber, h]
  rfl

/-- C10 witness: the default-number conjunct of C10 at an empty attribute
list. -/
theorem claimC10_witness : milestoneNumber [] = some 0 :=
  claimC10.1 [] rfl
